import Mathlib

open scoped List

/-!
# Verification of `find_duplicates.py`

Shallow embedding of the duplicate-file finder in `src/find_duplicates.py`.

The filesystem visible to one scan is modelled as a `FileSystem`: a flag
saying whether the root directory could be listed, and the flat list of
entries that `os.walk` yields (in traversal order).  Each entry carries the
data the program can observe about it: its path string, its base name, the
result of `os.path.isfile` (false for directories, special files, or files
whose type cannot be determined), its byte content, and whether opening and
reading it succeeds (`readable = false` models the `except` branch of
`calculate_checksum`).

Python dictionaries preserve insertion order, so `defaultdict(list)` with
`append`/`extend` is modelled by an association list `List (κ × List α)`
together with the operation `alAppend`, which appends values to the entry of
an existing key or adds a fresh key at the end.

`hashlib.md5(...).hexdigest()` is embedded as a full executable MD5 over
byte lists (`md5hex`), so that hash collisions of the real program are
reproducible here.
-/

/-- One entry yielded by the directory traversal, with the filesystem
state the program can observe about it during this (fixed-state) scan. -/
structure FSFile where
  path : String
  name : String
  isfile : Bool
  content : List Nat
  readable : Bool
  deriving DecidableEq, Repr

/-- `os.path.getsize`: on a fixed filesystem state, the byte size of the
file is the length of its content. -/
def fsize (f : FSFile) : Nat := f.content.length

/-- The filesystem as one call of `find_duplicates` sees it. -/
structure FileSystem where
  rootReadable : Bool
  entries : List FSFile
  deriving Repr

/-- `os.walk(root_directory)` flattened to the file entries it yields.
`os.walk` is called with the default `onerror=None`, so a root that cannot
be listed (nonexistent, not a directory, permission denied) produces no
entries and no exception. -/
def walkFiles (fs : FileSystem) : List FSFile :=
  if fs.rootReadable then fs.entries else []

/-! ## MD5 (`hashlib.md5(...).hexdigest()`) -/

/-- Truncation to 32 bits. -/
def m32 (n : Nat) : Nat := n % 4294967296

/-- 32-bit left rotation (argument assumed < 2^32). -/
def rotl32 (x n : Nat) : Nat :=
  ((x <<< n) + (x >>> (32 - n))) % 4294967296

/-- 32-bit complement. -/
def not32 (x : Nat) : Nat := x ^^^ 4294967295

/-- The 64 MD5 sine-derived constants. -/
def md5K : List Nat :=
  [0xd76aa478, 0xe8c7b756, 0x242070db, 0xc1bdceee,
   0xf57c0faf, 0x4787c62a, 0xa8304613, 0xfd469501,
   0x698098d8, 0x8b44f7af, 0xffff5bb1, 0x895cd7be,
   0x6b901122, 0xfd987193, 0xa679438e, 0x49b40821,
   0xf61e2562, 0xc040b340, 0x265e5a51, 0xe9b6c7aa,
   0xd62f105d, 0x02441453, 0xd8a1e681, 0xe7d3fbc8,
   0x21e1cde6, 0xc33707d6, 0xf4d50d87, 0x455a14ed,
   0xa9e3e905, 0xfcefa3f8, 0x676f02d9, 0x8d2a4c8a,
   0xfffa3942, 0x8771f681, 0x6d9d6122, 0xfde5380c,
   0xa4beea44, 0x4bdecfa9, 0xf6bb4b60, 0xbebfbc70,
   0x289b7ec6, 0xeaa127fa, 0xd4ef3085, 0x04881d05,
   0xd9d4d039, 0xe6db99e5, 0x1fa27cf8, 0xc4ac5665,
   0xf4292244, 0x432aff97, 0xab9423a7, 0xfc93a039,
   0x655b59c3, 0x8f0ccc92, 0xffeff47d, 0x85845dd1,
   0x6fa87e4f, 0xfe2ce6e0, 0xa3014314, 0x4e0811a1,
   0xf7537e82, 0xbd3af235, 0x2ad7d2bb, 0xeb86d391]

/-- The per-round left-rotation amounts. -/
def md5S : List Nat :=
  [7, 12, 17, 22, 7, 12, 17, 22, 7, 12, 17, 22, 7, 12, 17, 22,
   5, 9, 14, 20, 5, 9, 14, 20, 5, 9, 14, 20, 5, 9, 14, 20,
   4, 11, 16, 23, 4, 11, 16, 23, 4, 11, 16, 23, 4, 11, 16, 23,
   6, 10, 15, 21, 6, 10, 15, 21, 6, 10, 15, 21, 6, 10, 15, 21]

/-- The running MD5 state (four 32-bit words). -/
structure MD5State where
  a : Nat
  b : Nat
  c : Nat
  d : Nat
  deriving DecidableEq, Repr

/-- Little-endian bytes of 32-bit words assembled from a byte list. -/
def toWordsLE : List Nat → List Nat
  | b0 :: b1 :: b2 :: b3 :: rest =>
      (b0 % 256 + 256 * (b1 % 256) + 65536 * (b2 % 256) +
        16777216 * (b3 % 256)) :: toWordsLE rest
  | _ => []

/-- One of the 64 MD5 rounds, acting on the state, for message words `M`. -/
def md5Round (M : List Nat) (st : MD5State) (i : Nat) : MD5State :=
  let f :=
    if i < 16 then (st.b &&& st.c) ||| (not32 st.b &&& st.d)
    else if i < 32 then (st.d &&& st.b) ||| (not32 st.d &&& st.c)
    else if i < 48 then st.b ^^^ st.c ^^^ st.d
    else st.c ^^^ (st.b ||| not32 st.d)
  let g :=
    if i < 16 then i
    else if i < 32 then (5 * i + 1) % 16
    else if i < 48 then (3 * i + 5) % 16
    else (7 * i) % 16
  let tmp := m32 (f + st.a + md5K.getD i 0 + M.getD g 0)
  ⟨st.d, m32 (st.b + rotl32 tmp (md5S.getD i 0)), st.b, st.c⟩

/-- Process one 64-byte block. -/
def md5Block (st : MD5State) (block : List Nat) : MD5State :=
  let M := toWordsLE block
  let r := (List.range 64).foldl (md5Round M) st
  ⟨m32 (st.a + r.a), m32 (st.b + r.b), m32 (st.c + r.c), m32 (st.d + r.d)⟩

/-- Low `count` bytes of a natural number, little-endian. -/
def leBytes (n : Nat) : Nat → List Nat
  | 0 => []
  | k + 1 => (n % 256) :: leBytes (n / 256) k

/-- MD5 padding: `0x80`, zeros to 56 mod 64, then the 64-bit bit length. -/
def md5Pad (msg : List Nat) : List Nat :=
  let len := msg.length
  let z := (55 + 64 - len % 64) % 64
  msg ++ 128 :: List.replicate z 0 ++ leBytes (8 * len) 8

/-- Split a byte list into its 64-byte blocks (a padded message always has
length a positive multiple of 64). -/
def chunks64 (l : List Nat) : List (List Nat) :=
  (List.range (l.length / 64)).map fun i => (l.drop (64 * i)).take 64

/-- The full MD5 state after hashing a message. -/
def md5Sum (msg : List Nat) : MD5State :=
  (chunks64 (md5Pad msg)).foldl md5Block ⟨0x67452301, 0xefcdab89, 0x98badcfe, 0x10325476⟩

/-- One lowercase hexadecimal digit. -/
def hexDigit (n : Nat) : Char :=
  if n < 10 then Char.ofNat (48 + n) else Char.ofNat (87 + n)

/-- `hexdigest()`: the 16 digest bytes, each as two lowercase hex digits. -/
def md5hex (msg : List Nat) : String :=
  let st := md5Sum msg
  let bytes := leBytes st.a 4 ++ leBytes st.b 4 ++ leBytes st.c 4 ++ leBytes st.d 4
  String.mk (List.flatten (bytes.map fun b => [hexDigit (b / 16), hexDigit (b % 16)]))

/-! ## The embedded program -/

/-- `calculate_checksum`: read the first 1000 bytes and return the MD5 hex
digest; any failure (modelled by `readable = false`) prints a warning and
returns `None`. -/
def calculate_checksum (f : FSFile) : Option String :=
  if f.readable then some (md5hex (f.content.take 1000)) else none

/-- `defaultdict(list)` with insertion order: extend the value list of `k`
if present, otherwise add the key at the end.  `d[k].append(v)` is
`alAppend d k [v]`; `d[k].extend(vs)` is `alAppend d k vs`. -/
def alAppend {κ α : Type} [DecidableEq κ] :
    List (κ × List α) → κ → List α → List (κ × List α)
  | [], k, vs => [(k, vs)]
  | (k0, vs0) :: t, k, vs =>
      if k0 = k then (k0, vs0 ++ vs) :: t else (k0, vs0) :: alAppend t k vs

/-- Loop body of the first pass: `if os.path.isfile(filepath)` and
`file_size >= min_size_bytes`, then `files_data[(file_size, filename)].append(filepath)`. -/
def collectStep (min_size_bytes : Nat)
    (m : List ((Nat × String) × List FSFile)) (f : FSFile) :
    List ((Nat × String) × List FSFile) :=
  if f.isfile && decide (min_size_bytes ≤ fsize f) then
    alAppend m (fsize f, f.name) [f]
  else m

/-- First pass of `find_duplicates`: group the traversed entries by
`(file size, base name)`, keeping only regular files of at least
`min_size_bytes` bytes. -/
def collectCandidates (entries : List FSFile) (min_size_bytes : Nat) :
    List ((Nat × String) × List FSFile) :=
  entries.foldl (collectStep min_size_bytes) []

/-- Loop body of the checksum grouping: `checksum = calculate_checksum(path)`,
then `if checksum: checksums[checksum].append(path)` (a `None` result is
falsy, as would be an empty digest string). -/
def checksumStep (cs : List (String × List FSFile)) (p : FSFile) :
    List (String × List FSFile) :=
  match calculate_checksum p with
  | some c => if c = "" then cs else alAppend cs c [p]
  | none => cs

/-- Inner loop of the second pass: group the members of one candidate group
by their checksum, dropping members whose checksum is falsy. -/
def checksumGroups (paths : List FSFile) : List (String × List FSFile) :=
  paths.foldl checksumStep []

/-- `if len(dup_paths) > 1: duplicates[(checksum, file_size)].extend(dup_paths)`. -/
def emitStep (fsz : Nat) (d : List ((String × Nat) × List FSFile))
    (ckv : String × List FSFile) : List ((String × Nat) × List FSFile) :=
  if ckv.2.length > 1 then alAppend d (ckv.1, fsz) ckv.2 else d

/-- Body of the second pass for one candidate group of size `fsz`: every
checksum group with more than one member is added to the `duplicates`
mapping under the key `(checksum, file_size)` (Python:
`duplicates[(checksum, file_size)].extend(dup_paths)`). -/
def emitGroup (fsz : Nat) (paths : List FSFile)
    (dups : List ((String × Nat) × List FSFile)) :
    List ((String × Nat) × List FSFile) :=
  (checksumGroups paths).foldl (emitStep fsz) dups

/-- Loop body of the second pass over the candidate groups:
`if len(paths) > 1`, confirm the group by checksums. -/
def confirmStep (dups : List ((String × Nat) × List FSFile))
    (kv : (Nat × String) × List FSFile) : List ((String × Nat) × List FSFile) :=
  if kv.2.length > 1 then emitGroup kv.1.1 kv.2 dups else dups

/-- `find_duplicates(root_directory, min_size_mb)`.  Entries are carried as
`FSFile` records rather than bare path strings; on a fixed filesystem state
(distinct paths) the two are interchangeable, and the record keeps the
observable state the second pass re-reads from disk. -/
def find_duplicates (fs : FileSystem) (min_size_mb : Nat) :
    List ((String × Nat) × List FSFile) :=
  let min_size_bytes := min_size_mb * 1024 * 1024
  let files_data := collectCandidates (walkFiles fs) min_size_bytes
  files_data.foldl confirmStep []

/-- `calculate_extra_data(duplicates)`: for each set, `size * (len(paths) - 1)`,
summed.  Python integers are unbounded and may go negative, hence `Int`. -/
def calculate_extra_data (dups : List ((String × Nat) × List FSFile)) : Int :=
  dups.foldl (fun acc kv => acc + (kv.1.2 : Int) * ((kv.2.length : Int) - 1)) 0

/-! ## Bookkeeping for the association lists -/

/-- A group member whose fingerprint the second pass accepts: reading
succeeds and the digest string is truthy (Python: `if checksum:`). -/
def checksumOk (f : FSFile) : Bool :=
  match calculate_checksum f with
  | some c => !(c == "")
  | none => false

/-- All values stored in an association list, in insertion order. -/
def alValues {κ α : Type} (l : List (κ × List α)) : List α :=
  (l.map Prod.snd).flatten

/-- The keys of an association list, in insertion order. -/
def alKeys {κ α : Type} (l : List (κ × List α)) : List κ :=
  l.map Prod.fst

theorem alValues_nil {κ α : Type} : alValues ([] : List (κ × List α)) = [] := rfl

theorem alValues_cons {κ α : Type} (kv : κ × List α) (l : List (κ × List α)) :
    alValues (kv :: l) = kv.2 ++ alValues l := rfl

theorem alAppend_values_perm {κ α : Type} [DecidableEq κ]
    (l : List (κ × List α)) (k : κ) (vs : List α) :
    alValues (alAppend l k vs) ~ alValues l ++ vs := by
  induction l with
  | nil => simp [alAppend, alValues_cons, alValues_nil]
  | cons kv t ih =>
    obtain ⟨k0, vs0⟩ := kv
    by_cases h : k0 = k
    · simp only [alAppend, if_pos h, alValues_cons]
      calc (vs0 ++ vs) ++ alValues t
          ~ vs0 ++ (vs ++ alValues t) := (List.append_assoc vs0 vs (alValues t)) ▸ List.Perm.refl _
        _ ~ vs0 ++ (alValues t ++ vs) := List.Perm.append_left _ List.perm_append_comm
        _ ~ (vs0 ++ alValues t) ++ vs := (List.append_assoc vs0 (alValues t) vs) ▸ List.Perm.refl _
    · simp only [alAppend, if_neg h, alValues_cons]
      calc vs0 ++ alValues (alAppend t k vs)
          ~ vs0 ++ (alValues t ++ vs) := List.Perm.append_left _ ih
        _ ~ (vs0 ++ alValues t) ++ vs := (List.append_assoc vs0 (alValues t) vs) ▸ List.Perm.refl _

theorem alAppend_values_coe {κ α : Type} [DecidableEq κ]
    (l : List (κ × List α)) (k : κ) (vs : List α) :
    (alValues (alAppend l k vs) : Multiset α) = ↑(alValues l) + ↑vs := by
  rw [Multiset.coe_add, Multiset.coe_eq_coe]
  exact alAppend_values_perm l k vs

theorem mem_alValues_of_mem {κ α : Type} {l : List (κ × List α)}
    {kv : κ × List α} (hkv : kv ∈ l) {f : α} (hf : f ∈ kv.2) :
    f ∈ alValues l := by
  induction l with
  | nil => cases hkv
  | cons kv0 t ih =>
    rw [alValues_cons, List.mem_append]
    rcases List.mem_cons.mp hkv with h | h
    · exact Or.inl (h ▸ hf)
    · exact Or.inr (ih h)

theorem alAppend_forall {κ α : Type} [DecidableEq κ]
    {Q : κ → α → Prop} {l : List (κ × List α)} {k : κ} {vs : List α}
    (hl : ∀ kv ∈ l, ∀ f ∈ kv.2, Q kv.1 f) (hvs : ∀ f ∈ vs, Q k f) :
    ∀ kv ∈ alAppend l k vs, ∀ f ∈ kv.2, Q kv.1 f := by
  induction l with
  | nil =>
    intro kv hkv f hf
    simp only [alAppend, List.mem_singleton] at hkv
    subst hkv
    exact hvs f hf
  | cons kv0 t ih =>
    obtain ⟨k0, vs0⟩ := kv0
    intro kv hkv f hf
    by_cases h : k0 = k
    · rw [alAppend, if_pos h] at hkv
      rcases List.mem_cons.mp hkv with rfl | hkv
      · rcases List.mem_append.mp hf with hf | hf
        · exact hl (k0, vs0) (List.mem_cons_self _ _) f hf
        · exact h ▸ hvs f hf
      · exact hl kv (List.mem_cons_of_mem _ hkv) f hf
    · rw [alAppend, if_neg h] at hkv
      rcases List.mem_cons.mp hkv with rfl | hkv
      · exact hl (k0, vs0) (List.mem_cons_self _ _) f hf
      · exact ih (fun kv1 h1 => hl kv1 (List.mem_cons_of_mem _ h1)) kv hkv f hf

theorem alAppend_two_le {κ α : Type} [DecidableEq κ]
    {l : List (κ × List α)} {k : κ} {vs : List α}
    (hl : ∀ kv ∈ l, 2 ≤ kv.2.length) (hvs : 2 ≤ vs.length) :
    ∀ kv ∈ alAppend l k vs, 2 ≤ kv.2.length := by
  induction l with
  | nil =>
    intro kv hkv
    simp only [alAppend, List.mem_singleton] at hkv
    subst hkv
    exact hvs
  | cons kv0 t ih =>
    obtain ⟨k0, vs0⟩ := kv0
    intro kv hkv
    by_cases h : k0 = k
    · rw [alAppend, if_pos h] at hkv
      rcases List.mem_cons.mp hkv with rfl | hkv
      · simp only [List.length_append]
        omega
      · exact hl kv (List.mem_cons_of_mem _ hkv)
    · rw [alAppend, if_neg h] at hkv
      rcases List.mem_cons.mp hkv with rfl | hkv
      · exact hl (k0, vs0) (List.mem_cons_self _ _)
      · exact ih (fun kv1 h1 => hl kv1 (List.mem_cons_of_mem _ h1)) kv hkv

theorem mem_alKeys_alAppend {κ α : Type} [DecidableEq κ]
    {l : List (κ × List α)} {k : κ} {vs : List α} {k1 : κ}
    (h : k1 ∈ alKeys (alAppend l k vs)) : k1 ∈ alKeys l ∨ k1 = k := by
  induction l with
  | nil =>
    simp only [alAppend, alKeys, List.map_cons, List.map_nil, List.mem_singleton] at h
    exact Or.inr h
  | cons kv0 t ih =>
    obtain ⟨k0, vs0⟩ := kv0
    by_cases hk : k0 = k
    · rw [alAppend, if_pos hk] at h
      simp only [alKeys, List.map_cons, List.mem_cons] at h ⊢
      rcases h with h | h
      · exact Or.inl (Or.inl h)
      · exact Or.inl (Or.inr h)
    · rw [alAppend, if_neg hk] at h
      simp only [alKeys, List.map_cons, List.mem_cons] at h ⊢
      rcases h with h | h
      · exact Or.inl (Or.inl h)
      · rcases ih h with h1 | h1
        · exact Or.inl (Or.inr h1)
        · exact Or.inr h1

theorem alKeys_alAppend_nodup {κ α : Type} [DecidableEq κ]
    {l : List (κ × List α)} (k : κ) (vs : List α)
    (hl : (alKeys l).Nodup) : (alKeys (alAppend l k vs)).Nodup := by
  induction l with
  | nil => simp [alAppend, alKeys]
  | cons kv0 t ih =>
    obtain ⟨k0, vs0⟩ := kv0
    simp only [alKeys, List.map_cons, List.nodup_cons] at hl
    by_cases hk : k0 = k
    · rw [alAppend, if_pos hk]
      simp only [alKeys, List.map_cons, List.nodup_cons]
      exact hl
    · rw [alAppend, if_neg hk]
      simp only [alKeys, List.map_cons, List.nodup_cons]
      refine ⟨fun hmem => ?_, ih hl.2⟩
      rcases mem_alKeys_alAppend hmem with h1 | h1
      · exact hl.1 h1
      · exact hk h1

theorem foldl_invariant {β γ : Type} (step : γ → β → γ) (P : γ → Prop)
    (l : List β) (hstep : ∀ acc b, b ∈ l → P acc → P (step acc b))
    (acc : γ) (hacc : P acc) : P (l.foldl step acc) := by
  induction l generalizing acc with
  | nil => exact hacc
  | cons b t ih =>
    exact ih (fun a c hc ha => hstep a c (List.mem_cons_of_mem _ hc) ha) _
      (hstep acc b (List.mem_cons_self _ _) hacc)

theorem foldl_fixed {β γ : Type} {step : γ → β → γ} {l : List β}
    (h : ∀ acc b, b ∈ l → step acc b = acc) (acc : γ) :
    l.foldl step acc = acc := by
  induction l generalizing acc with
  | nil => rfl
  | cons b t ih =>
    rw [List.foldl_cons, h acc b (List.mem_cons_self _ _)]
    exact ih (fun a c hc => h a c (List.mem_cons_of_mem _ hc)) _

theorem foldl_values_le {β κ α : Type} [DecidableEq κ]
    (step : List (κ × List α) → β → List (κ × List α))
    (contrib : β → Multiset α) (l : List β)
    (h : ∀ acc b, b ∈ l →
      (alValues (step acc b) : Multiset α) ≤ ↑(alValues acc) + contrib b)
    (acc : List (κ × List α)) :
    (alValues (l.foldl step acc) : Multiset α) ≤
      ↑(alValues acc) + (l.map contrib).sum := by
  induction l generalizing acc with
  | nil => simp
  | cons b t ih =>
    rw [List.foldl_cons]
    calc (alValues (t.foldl step (step acc b)) : Multiset α)
        ≤ ↑(alValues (step acc b)) + (t.map contrib).sum :=
          ih (fun a c hc => h a c (List.mem_cons_of_mem _ hc)) _
      _ ≤ (↑(alValues acc) + contrib b) + (t.map contrib).sum :=
          add_le_add_right (h acc b (List.mem_cons_self _ _)) _
      _ = ↑(alValues acc) + ((b :: t).map contrib).sum := by
          rw [List.map_cons, List.sum_cons, add_assoc]

theorem sum_map_singleton_coe {α : Type} (l : List α) :
    (l.map fun a => ({a} : Multiset α)).sum = ↑l := by
  induction l with
  | nil => rfl
  | cons a t ih =>
    rw [List.map_cons, List.sum_cons, ih, Multiset.singleton_add, Multiset.cons_coe]

theorem alValues_coe_sum {κ α : Type} (l : List (κ × List α)) :
    (alValues l : Multiset α) = (l.map fun kv => (↑kv.2 : Multiset α)).sum := by
  induction l with
  | nil => rfl
  | cons kv t ih =>
    rw [alValues_cons, ← Multiset.coe_add, ih, List.map_cons, List.sum_cons]


/-! ## Invariants of the two passes -/

theorem checksumStep_none {cs : List (String × List FSFile)} {p : FSFile}
    (hc : calculate_checksum p = none) : checksumStep cs p = cs := by
  unfold checksumStep
  rw [hc]

theorem checksumStep_blank {cs : List (String × List FSFile)} {p : FSFile}
    {c : String} (hc : calculate_checksum p = some c) (hce : c = "") :
    checksumStep cs p = cs := by
  unfold checksumStep
  rw [hc]
  exact if_pos hce

theorem checksumStep_add {cs : List (String × List FSFile)} {p : FSFile}
    {c : String} (hc : calculate_checksum p = some c) (hce : c ≠ "") :
    checksumStep cs p = alAppend cs c [p] := by
  unfold checksumStep
  rw [hc]
  exact if_neg hce

theorem checksumOk_none {p : FSFile} (hc : calculate_checksum p = none) :
    checksumOk p = false := by
  unfold checksumOk
  rw [hc]

theorem checksumOk_some {p : FSFile} {c : String}
    (hc : calculate_checksum p = some c) : checksumOk p = !(c == "") := by
  unfold checksumOk
  rw [hc]

theorem checksumGroups_mem {paths : List FSFile} :
    ∀ kv ∈ checksumGroups paths, ∀ f ∈ kv.2,
      f ∈ paths ∧ calculate_checksum f = some kv.1 := by
  have h0 : ∀ kv ∈ ([] : List (String × List FSFile)), ∀ f ∈ kv.2,
      f ∈ paths ∧ calculate_checksum f = some kv.1 := by
    intro kv h
    cases h
  refine foldl_invariant checksumStep
    (fun d => ∀ kv ∈ d, ∀ f ∈ kv.2, f ∈ paths ∧ calculate_checksum f = some kv.1)
    paths ?_ [] h0
  intro acc p hp hacc
  cases hc : calculate_checksum p with
  | none => rw [checksumStep_none hc]; exact hacc
  | some c =>
    by_cases hce : c = ""
    · rw [checksumStep_blank hc hce]; exact hacc
    · rw [checksumStep_add hc hce]
      apply alAppend_forall
        (Q := fun k f => f ∈ paths ∧ calculate_checksum f = some k) hacc
      intro f hf
      rw [List.mem_singleton] at hf
      subst hf
      exact ⟨hp, hc⟩

theorem checksumGroups_fold_values (l : List FSFile) :
    ∀ acc : List (String × List FSFile),
      (alValues (l.foldl checksumStep acc) : Multiset FSFile) =
        ↑(alValues acc) + ↑(l.filter checksumOk) := by
  induction l with
  | nil => intro acc; simp
  | cons p t ih =>
    intro acc
    rw [List.foldl_cons, ih]
    cases hc : calculate_checksum p with
    | none =>
      rw [checksumStep_none hc,
        List.filter_cons_of_neg (by rw [checksumOk_none hc]; exact Bool.false_ne_true)]
    | some c =>
      by_cases hce : c = ""
      · have hok : checksumOk p = false := by
          rw [checksumOk_some hc, hce]
          rfl
        rw [checksumStep_blank hc hce,
          List.filter_cons_of_neg (by rw [hok]; exact Bool.false_ne_true)]
      · have hok : checksumOk p = true := by
          rw [checksumOk_some hc, Bool.not_eq_true']
          exact beq_false_of_ne hce
        rw [checksumStep_add hc hce, List.filter_cons_of_pos hok,
          alAppend_values_coe, Multiset.coe_singleton, ← Multiset.cons_coe,
          ← Multiset.singleton_add, add_assoc,
          add_comm ({p} : Multiset FSFile), ← add_assoc]

theorem checksumGroups_values (paths : List FSFile) :
    (alValues (checksumGroups paths) : Multiset FSFile) =
      ↑(paths.filter checksumOk) := by
  have h := checksumGroups_fold_values paths []
  rw [checksumGroups]
  simpa using h

theorem collectStep_skip {msb : Nat} {acc : List ((Nat × String) × List FSFile)}
    {f : FSFile} (h : (f.isfile && decide (msb ≤ fsize f)) = false) :
    collectStep msb acc f = acc := by
  unfold collectStep
  rw [h]
  rfl

theorem collectStep_add {msb : Nat} {acc : List ((Nat × String) × List FSFile)}
    {f : FSFile} (h : (f.isfile && decide (msb ≤ fsize f)) = true) :
    collectStep msb acc f = alAppend acc (fsize f, f.name) [f] := by
  unfold collectStep
  rw [h]
  rfl

theorem collectCandidates_mem (entries : List FSFile) (msb : Nat) :
    ∀ kv ∈ collectCandidates entries msb, ∀ f ∈ kv.2,
      f.isfile = true ∧ msb ≤ fsize f ∧ fsize f = kv.1.1 ∧ f.name = kv.1.2 ∧
        f ∈ entries := by
  have h0 : ∀ kv ∈ ([] : List ((Nat × String) × List FSFile)), ∀ f ∈ kv.2,
      f.isfile = true ∧ msb ≤ fsize f ∧ fsize f = kv.1.1 ∧ f.name = kv.1.2 ∧
        f ∈ entries := by
    intro kv h
    cases h
  refine foldl_invariant (collectStep msb)
    (fun d => ∀ kv ∈ d, ∀ f ∈ kv.2,
      f.isfile = true ∧ msb ≤ fsize f ∧ fsize f = kv.1.1 ∧ f.name = kv.1.2 ∧
        f ∈ entries)
    entries ?_ [] h0
  intro acc b hb hacc
  by_cases hg : (b.isfile && decide (msb ≤ fsize b)) = true
  · rw [collectStep_add hg]
    apply alAppend_forall
      (Q := fun (k : Nat × String) (f : FSFile) =>
        f.isfile = true ∧ msb ≤ fsize f ∧ fsize f = k.1 ∧
          f.name = k.2 ∧ f ∈ entries) hacc
    intro f hf
    rw [List.mem_singleton] at hf
    subst hf
    rcases Bool.and_eq_true_iff.mp hg with ⟨h1, h2⟩
    exact ⟨h1, of_decide_eq_true h2, rfl, rfl, hb⟩
  · rw [collectStep_skip (Bool.not_eq_true _ ▸ hg)]
    exact hacc

theorem collectCandidates_values_le (entries : List FSFile) (msb : Nat) :
    (alValues (collectCandidates entries msb) : Multiset FSFile) ≤ ↑entries := by
  have hstep : ∀ acc b, b ∈ entries →
      (alValues (collectStep msb acc b) : Multiset FSFile) ≤
        ↑(alValues acc) + ({b} : Multiset FSFile) := by
    intro acc b _
    by_cases hg : (b.isfile && decide (msb ≤ fsize b)) = true
    · rw [collectStep_add hg, alAppend_values_coe, Multiset.coe_singleton]
    · rw [collectStep_skip (Bool.not_eq_true _ ▸ hg)]
      exact Multiset.le_add_right _ _
  have h := foldl_values_le (collectStep msb) (fun b => ({b} : Multiset FSFile))
    entries hstep []
  rw [alValues_nil, sum_map_singleton_coe] at h
  simpa using h

theorem emitStep_skip {fsz : Nat} {d : List ((String × Nat) × List FSFile)}
    {ckv : String × List FSFile} (h : ¬ ckv.2.length > 1) :
    emitStep fsz d ckv = d := by
  unfold emitStep
  exact if_neg h

theorem emitStep_add {fsz : Nat} {d : List ((String × Nat) × List FSFile)}
    {ckv : String × List FSFile} (h : ckv.2.length > 1) :
    emitStep fsz d ckv = alAppend d (ckv.1, fsz) ckv.2 := by
  unfold emitStep
  exact if_pos h

theorem emitGroup_forall {fsz : Nat} {paths : List FSFile}
    {dups : List ((String × Nat) × List FSFile)}
    {Q : String × Nat → FSFile → Prop}
    (hd : ∀ kv ∈ dups, ∀ f ∈ kv.2, Q kv.1 f)
    (hp : ∀ c f, f ∈ paths → calculate_checksum f = some c → Q (c, fsz) f) :
    ∀ kv ∈ emitGroup fsz paths dups, ∀ f ∈ kv.2, Q kv.1 f := by
  unfold emitGroup
  refine foldl_invariant (emitStep fsz) (fun d => ∀ kv ∈ d, ∀ f ∈ kv.2, Q kv.1 f)
    (checksumGroups paths) ?_ dups hd
  intro acc ckv hckv hacc
  by_cases hlen : ckv.2.length > 1
  · rw [emitStep_add hlen]
    apply alAppend_forall (Q := Q) hacc
    intro f hf
    have h1 := checksumGroups_mem ckv hckv f hf
    exact hp ckv.1 f h1.1 h1.2
  · rw [emitStep_skip hlen]
    exact hacc

theorem emitGroup_values_le (fsz : Nat) (paths : List FSFile)
    (dups : List ((String × Nat) × List FSFile)) :
    (alValues (emitGroup fsz paths dups) : Multiset FSFile) ≤
      ↑(alValues dups) + ↑paths := by
  unfold emitGroup
  have hstep : ∀ acc ckv, ckv ∈ checksumGroups paths →
      (alValues (emitStep fsz acc ckv) : Multiset FSFile) ≤
        ↑(alValues acc) + (↑ckv.2 : Multiset FSFile) := by
    intro acc ckv _
    by_cases hlen : ckv.2.length > 1
    · rw [emitStep_add hlen, alAppend_values_coe]
    · rw [emitStep_skip hlen]
      exact Multiset.le_add_right _ _
  have h := foldl_values_le (emitStep fsz) (fun ckv => (↑ckv.2 : Multiset FSFile))
    (checksumGroups paths) hstep dups
  refine le_trans h ?_
  rw [← alValues_coe_sum, checksumGroups_values]
  exact add_le_add_left (Multiset.coe_le.mpr (List.filter_sublist _).subperm) _

theorem emitGroup_two_le {fsz : Nat} {paths : List FSFile}
    {dups : List ((String × Nat) × List FSFile)}
    (hd : ∀ kv ∈ dups, 2 ≤ kv.2.length) :
    ∀ kv ∈ emitGroup fsz paths dups, 2 ≤ kv.2.length := by
  unfold emitGroup
  refine foldl_invariant (emitStep fsz) (fun d => ∀ kv ∈ d, 2 ≤ kv.2.length)
    (checksumGroups paths) ?_ dups hd
  intro acc ckv hckv hacc
  by_cases hlen : ckv.2.length > 1
  · rw [emitStep_add hlen]
    exact alAppend_two_le hacc hlen
  · rw [emitStep_skip hlen]
    exact hacc

theorem alValues_le_of_mem {κ α : Type} {l : List (κ × List α)}
    {kv : κ × List α} (h : kv ∈ l) : (↑kv.2 : Multiset α) ≤ ↑(alValues l) := by
  induction l with
  | nil => cases h
  | cons kv0 t ih =>
    rw [alValues_cons, ← Multiset.coe_add]
    rcases List.mem_cons.mp h with rfl | h1
    · exact Multiset.le_add_right _ _
    · exact le_trans (ih h1) (Multiset.le_add_left _ _)

theorem emitGroup_unchanged {fsz : Nat} {paths : List FSFile}
    (h : (paths.filter checksumOk).length < 2) :
    ∀ dups, emitGroup fsz paths dups = dups := by
  intro dups
  unfold emitGroup
  apply foldl_fixed
  intro d ckv hckv
  apply emitStep_skip
  have h1 := alValues_le_of_mem hckv
  rw [checksumGroups_values] at h1
  have h2 := Multiset.card_le_card h1
  rw [Multiset.coe_card, Multiset.coe_card] at h2
  omega

theorem find_duplicates_eq (fs : FileSystem) (m : Nat) :
    find_duplicates fs m =
      (collectCandidates (walkFiles fs) (m * 1024 * 1024)).foldl confirmStep [] :=
  rfl

theorem confirmStep_skip {dups : List ((String × Nat) × List FSFile)}
    {kv : (Nat × String) × List FSFile} (h : ¬ kv.2.length > 1) :
    confirmStep dups kv = dups := by
  unfold confirmStep
  exact if_neg h

theorem confirmStep_add {dups : List ((String × Nat) × List FSFile)}
    {kv : (Nat × String) × List FSFile} (h : kv.2.length > 1) :
    confirmStep dups kv = emitGroup kv.1.1 kv.2 dups := by
  unfold confirmStep
  exact if_pos h

theorem find_duplicates_mem (fs : FileSystem) (m : Nat) :
    ∀ kv ∈ find_duplicates fs m, ∀ f ∈ kv.2,
      f ∈ walkFiles fs ∧ f.isfile = true ∧ m * 1024 * 1024 ≤ fsize f ∧
        fsize f = kv.1.2 ∧ calculate_checksum f = some kv.1.1 := by
  rw [find_duplicates_eq]
  have h0 : ∀ kv ∈ ([] : List ((String × Nat) × List FSFile)), ∀ f ∈ kv.2,
      f ∈ walkFiles fs ∧ f.isfile = true ∧ m * 1024 * 1024 ≤ fsize f ∧
        fsize f = kv.1.2 ∧ calculate_checksum f = some kv.1.1 := by
    intro kv h
    cases h
  refine foldl_invariant confirmStep
    (fun d => ∀ kv ∈ d, ∀ f ∈ kv.2,
      f ∈ walkFiles fs ∧ f.isfile = true ∧ m * 1024 * 1024 ≤ fsize f ∧
        fsize f = kv.1.2 ∧ calculate_checksum f = some kv.1.1)
    (collectCandidates (walkFiles fs) (m * 1024 * 1024)) ?_ [] h0
  intro acc gkv hg hacc
  by_cases hlen : gkv.2.length > 1
  · rw [confirmStep_add hlen]
    apply emitGroup_forall
      (Q := fun (k : String × Nat) (f : FSFile) =>
        f ∈ walkFiles fs ∧ f.isfile = true ∧ m * 1024 * 1024 ≤ fsize f ∧
          fsize f = k.2 ∧ calculate_checksum f = some k.1) hacc
    intro c f hf hcf
    have h5 := collectCandidates_mem (walkFiles fs) (m * 1024 * 1024) gkv hg f hf
    exact ⟨h5.2.2.2.2, h5.1, h5.2.1, h5.2.2.1, hcf⟩
  · rw [confirmStep_skip hlen]
    exact hacc

theorem find_duplicates_two_le (fs : FileSystem) (m : Nat) :
    ∀ kv ∈ find_duplicates fs m, 2 ≤ kv.2.length := by
  rw [find_duplicates_eq]
  refine foldl_invariant confirmStep (fun d => ∀ kv ∈ d, 2 ≤ kv.2.length)
    (collectCandidates (walkFiles fs) (m * 1024 * 1024)) ?_ []
    (by intro kv h; cases h)
  intro acc gkv hg hacc
  by_cases hlen : gkv.2.length > 1
  · rw [confirmStep_add hlen]
    exact emitGroup_two_le hacc
  · rw [confirmStep_skip hlen]
    exact hacc

theorem find_duplicates_values_le (fs : FileSystem) (m : Nat) :
    (alValues (find_duplicates fs m) : Multiset FSFile) ≤ ↑(walkFiles fs) := by
  rw [find_duplicates_eq]
  have hstep : ∀ acc gkv, gkv ∈ collectCandidates (walkFiles fs) (m * 1024 * 1024) →
      (alValues (confirmStep acc gkv) : Multiset FSFile) ≤
        ↑(alValues acc) + (↑gkv.2 : Multiset FSFile) := by
    intro acc gkv _
    by_cases hlen : gkv.2.length > 1
    · rw [confirmStep_add hlen]
      exact emitGroup_values_le _ _ _
    · rw [confirmStep_skip hlen]
      exact Multiset.le_add_right _ _
  have h := foldl_values_le confirmStep (fun gkv => (↑gkv.2 : Multiset FSFile))
    (collectCandidates (walkFiles fs) (m * 1024 * 1024)) hstep []
  rw [← alValues_coe_sum] at h
  refine le_trans h ?_
  simp only [alValues_nil]
  rw [show ((([] : List FSFile) : Multiset FSFile)) = 0 from rfl, zero_add]
  exact collectCandidates_values_le _ _

theorem walkFiles_le_entries (fs : FileSystem) :
    (↑(walkFiles fs) : Multiset FSFile) ≤ ↑fs.entries := by
  unfold walkFiles
  by_cases hr : fs.rootReadable = true
  · rw [if_pos hr]
  · rw [if_neg hr]
    exact Multiset.zero_le _

theorem find_duplicates_flat_nodup (fs : FileSystem) (m : Nat)
    (h : (fs.entries.map FSFile.path).Nodup) :
    ((alValues (find_duplicates fs m)).map FSFile.path).Nodup := by
  have h1 := le_trans (find_duplicates_values_le fs m) (walkFiles_le_entries fs)
  have h3 := Multiset.map_le_map (f := FSFile.path) h1
  rw [Multiset.map_coe, Multiset.map_coe] at h3
  exact Multiset.coe_nodup.mp
    (Multiset.nodup_of_le h3 (Multiset.coe_nodup.mpr h))

theorem find_duplicates_flatten_eq (fs : FileSystem) (m : Nat) :
    (alValues (find_duplicates fs m)).map FSFile.path =
      ((find_duplicates fs m).map fun kv => kv.2.map FSFile.path).flatten := by
  unfold alValues
  rw [List.map_flatten, List.map_map]
  rfl

theorem find_duplicates_sets_nodup (fs : FileSystem) (m : Nat)
    (h : (fs.entries.map FSFile.path).Nodup) :
    ∀ kv ∈ find_duplicates fs m, (kv.2.map FSFile.path).Nodup := by
  have hflat := find_duplicates_flat_nodup fs m h
  rw [find_duplicates_flatten_eq, List.nodup_flatten] at hflat
  intro kv hkv
  exact hflat.1 _ (List.mem_map_of_mem _ hkv)

theorem find_duplicates_pairwise_disjoint (fs : FileSystem) (m : Nat)
    (h : (fs.entries.map FSFile.path).Nodup) :
    (find_duplicates fs m).Pairwise
      (fun kv1 kv2 => ∀ p, p ∈ kv1.2.map FSFile.path →
        p ∉ kv2.2.map FSFile.path) := by
  have hflat := find_duplicates_flat_nodup fs m h
  rw [find_duplicates_flatten_eq, List.nodup_flatten] at hflat
  have h2 := hflat.2
  rw [List.pairwise_map] at h2
  exact h2.imp (fun hd p hp1 hp2 => hd hp1 hp2)

theorem countP_le_one_of_pairwise {α : Type} {P : α → Prop} [DecidablePred P]
    {l : List α} (h : l.Pairwise fun a b => P a → ¬ P b) :
    l.countP (fun a => decide (P a)) ≤ 1 := by
  induction l with
  | nil => simp
  | cons a t ih =>
    rw [List.countP_cons]
    rcases List.pairwise_cons.mp h with ⟨ha, ht⟩
    by_cases hp : P a
    · have hz : t.countP (fun a => decide (P a)) = 0 :=
        List.countP_eq_zero.mpr (fun b hb => by simp [ha b hb hp])
      simp [hz, hp]
    · simp [hp, ih ht]

/-! ## Concrete scan scenarios

Small fixed filesystem states used to witness the theorems and to refute
the claims that fail on the code. -/

/-- A regular readable file `x` of content `[7]`. -/
def fX1 : FSFile := ⟨"/r/a/x", "x", true, [7], true⟩

/-- A second copy of `x` at another path. -/
def fX2 : FSFile := ⟨"/r/b/x", "x", true, [7], true⟩

/-- A file named `y` whose content equals that of the `x` files. -/
def fY1 : FSFile := ⟨"/r/c/y", "y", true, [7], true⟩

/-- A second copy of `y` at another path. -/
def fY2 : FSFile := ⟨"/r/d/y", "y", true, [7], true⟩

/-- A regular file whose read fails during fingerprinting. -/
def fBad : FSFile := ⟨"/r/e/x", "x", true, [7], false⟩

/-- Two duplicate pairs with different base names but identical content. -/
def fsMerge : FileSystem := ⟨true, [fX1, fX2, fY1, fY2]⟩

/-- The DuplicateSet that the scan of `fsMerge` produces. -/
def dupSetMerge : (String × Nat) × List FSFile :=
  (("89e74e640b8c46257a29de0616794d5d", 1), [fX1, fX2, fY1, fY2])

/-- First message of the classical two-block MD5 collision (Wang et al.). -/
def colM1 : List Nat :=
  [209, 49, 221, 2, 197, 230, 238, 196, 105, 61, 154, 6, 152, 175, 249, 92,
   47, 202, 181, 135, 18, 70, 126, 171, 64, 4, 88, 62, 184, 251, 127, 137,
   85, 173, 52, 6, 9, 244, 179, 2, 131, 228, 136, 131, 37, 113, 65, 90,
   8, 81, 37, 232, 247, 205, 201, 159, 217, 29, 189, 242, 128, 55, 60, 91,
   216, 130, 62, 49, 86, 52, 143, 91, 174, 109, 172, 212, 54, 201, 25, 198,
   221, 83, 226, 180, 135, 218, 3, 253, 2, 57, 99, 6, 210, 72, 205, 160,
   233, 159, 51, 66, 15, 87, 126, 232, 206, 84, 182, 112, 128, 168, 13, 30,
   198, 152, 33, 188, 182, 168, 131, 147, 150, 249, 101, 43, 111, 247, 42, 112]

/-- Second message of the collision pair: differs from `colM1` in six bytes
yet has the same MD5 digest. -/
def colM2 : List Nat :=
  [209, 49, 221, 2, 197, 230, 238, 196, 105, 61, 154, 6, 152, 175, 249, 92,
   47, 202, 181, 7, 18, 70, 126, 171, 64, 4, 88, 62, 184, 251, 127, 137,
   85, 173, 52, 6, 9, 244, 179, 2, 131, 228, 136, 131, 37, 241, 65, 90,
   8, 81, 37, 232, 247, 205, 201, 159, 217, 29, 189, 114, 128, 55, 60, 91,
   216, 130, 62, 49, 86, 52, 143, 91, 174, 109, 172, 212, 54, 201, 25, 198,
   221, 83, 226, 52, 135, 218, 3, 253, 2, 57, 99, 6, 210, 72, 205, 160,
   233, 159, 51, 66, 15, 87, 126, 232, 206, 84, 182, 112, 128, 40, 13, 30,
   198, 152, 33, 188, 182, 168, 131, 147, 150, 249, 101, 171, 111, 247, 42, 112]

/-- A file holding the first collision message. -/
def fCol1 : FSFile := ⟨"/r/a/x", "x", true, colM1, true⟩

/-- A file of the same size and name holding the second collision message. -/
def fCol2 : FSFile := ⟨"/r/b/x", "x", true, colM2, true⟩

/-- Two same-named files whose contents differ but collide under MD5. -/
def fsCol : FileSystem := ⟨true, [fCol1, fCol2]⟩

/-- The DuplicateSet that the scan of `fsCol` produces. -/
def dupSetCol : (String × Nat) × List FSFile :=
  (("79054025255fb1a26e4bc422aef54eb4", 128), [fCol1, fCol2])

/-! ## Remaining helper lemmas -/

theorem readable_of_checksum_some {f : FSFile} {c : String}
    (h : calculate_checksum f = some c) : f.readable = true := by
  by_cases hr : f.readable = true
  · exact hr
  · unfold calculate_checksum at h
    rw [if_neg hr] at h
    cases h

theorem md5hex_of_checksum_some {f : FSFile} {c : String}
    (h : calculate_checksum f = some c) : md5hex (f.content.take 1000) = c := by
  have hr := readable_of_checksum_some h
  unfold calculate_checksum at h
  rw [if_pos hr] at h
  exact Option.some.inj h

theorem exists_of_mem_alValues {κ α : Type} {l : List (κ × List α)} {f : α}
    (h : f ∈ alValues l) : ∃ kv ∈ l, f ∈ kv.2 := by
  induction l with
  | nil => cases h
  | cons kv0 t ih =>
    rw [alValues_cons, List.mem_append] at h
    rcases h with h | h
    · exact ⟨kv0, List.mem_cons_self _ _, h⟩
    · obtain ⟨kv, h1, h2⟩ := ih h
      exact ⟨kv, List.mem_cons_of_mem _ h1, h2⟩

theorem foldl_add_eq_sum {β : Type} (g : β → Int) (l : List β) :
    ∀ a : Int, l.foldl (fun acc b => acc + g b) a = a + (l.map g).sum := by
  induction l with
  | nil => intro a; simp
  | cons b t ih =>
    intro a
    rw [List.foldl_cons, ih, List.map_cons, List.sum_cons, add_assoc]

/-! ## Claims -/

set_option maxRecDepth 100000

/-- Claim C1, counterexample: it is not true that all files in one
DuplicateSet share a base name.  In `fsMerge`, the pair named `x` and the
pair named `y` have identical content and size, so both candidate groups
produce the same `(checksum, file_size)` key, and
`duplicates[(checksum, file_size)].extend(dup_paths)` merges them into one
DuplicateSet holding the base names `x` and `y` together. -/
theorem C1_counterexample :
    ¬ (∀ kv ∈ find_duplicates fsMerge 0, ∀ f1 ∈ kv.2, ∀ f2 ∈ kv.2,
        fsize f1 = fsize f2 ∧ f1.name = f2.name) := by
  decide

/-- Claim C1 (amended): for every scan, all files in the same DuplicateSet
returned by `find_duplicates` have equal sizes — each equals the size
component of the set's key.  Base-name equality does not hold in general,
because candidate groups of equal size and equal prefix digest but
different base names are merged under one `(checksum, size)` key. -/
theorem C1_sizes_agree (fs : FileSystem) (m : Nat) :
    ∀ kv ∈ find_duplicates fs m, ∀ f1 ∈ kv.2, ∀ f2 ∈ kv.2,
      fsize f1 = fsize f2 := by
  intro kv hkv f1 h1 f2 h2
  have a1 := find_duplicates_mem fs m kv hkv f1 h1
  have a2 := find_duplicates_mem fs m kv hkv f2 h2
  rw [a1.2.2.2.1, a2.2.2.2.1]

/-- Witness for C1 (amended) at the concrete scan of `fsMerge`. -/
theorem C1_witness : fsize fX1 = fsize fY1 :=
  C1_sizes_agree fsMerge 0 dupSetMerge (by decide) fX1 (by decide) fY1 (by decide)

/-- Claim C2, counterexample: a root that cannot be read is not fatal and
is not reported.  `os.walk` (with its default `onerror=None`) suppresses
the error, so scanning an unreadable root containing a duplicate pair
returns the same normal, empty mapping as scanning an empty tree — while
the same entries under a readable root do produce duplicates. -/
theorem C2_counterexample :
    find_duplicates ⟨false, [fX1, fX2]⟩ 0 = find_duplicates ⟨true, []⟩ 0 ∧
      find_duplicates ⟨true, [fX1, fX2]⟩ 0 ≠ [] := by
  constructor
  · rfl
  · decide

/-- Claim C2 (amended): no failure is fatal or reported by the scan.  A
root path that cannot be read (nonexistent, or not a directory) is
silently treated like an empty tree and yields an empty mapping, and every
per-file error is local and non-fatal: a file whose stat fails
(`isfile = false`) or whose read fails (`readable = false`) is merely
excluded from the output, and the scan always runs to completion. -/
theorem C2_no_fatal_errors :
    (∀ entries : List FSFile, ∀ m : Nat, find_duplicates ⟨false, entries⟩ m = []) ∧
      (∀ fs : FileSystem, ∀ m : Nat, ∀ kv ∈ find_duplicates fs m, ∀ f ∈ kv.2,
        f.isfile = true ∧ f.readable = true) := by
  constructor
  · intro entries m
    rfl
  · intro fs m kv hkv f hf
    have a := find_duplicates_mem fs m kv hkv f hf
    exact ⟨a.2.1, readable_of_checksum_some a.2.2.2.2⟩

/-- Witness for C2 (amended): a concrete unreadable root yields the empty
mapping, and a concrete member of a concrete DuplicateSet passed both the
stat and the read. -/
theorem C2_witness :
    find_duplicates ⟨false, [fX1]⟩ 3 = [] ∧
      (fX1.isfile = true ∧ fX1.readable = true) :=
  ⟨C2_no_fatal_errors.1 [fX1] 3,
    C2_no_fatal_errors.2 fsMerge 0 dupSetMerge (by decide) fX1 (by decide)⟩

/-- Claim C3, counterexample: two files of the same DuplicateSet need not
agree on their first min(1000, size) bytes.  The files of `fsCol` hold the
two 128-byte messages of the classical MD5 collision: their contents
differ (already at byte 19), yet their digests — hence their
`(checksum, size)` keys — coincide, so `find_duplicates` puts them into
one DuplicateSet. -/
theorem C3_counterexample :
    ¬ (∀ kv ∈ find_duplicates fsCol 0, ∀ f1 ∈ kv.2, ∀ f2 ∈ kv.2,
        f1.content.take 1000 = f2.content.take 1000) := by
  decide

/-- Claim C3 (amended): all files in the same DuplicateSet have the same
MD5 hex digest of their first min(1000, size) bytes.  Byte-identity of the
prefixes themselves is not guaranteed, since distinct prefixes may collide
under MD5. -/
theorem C3_digests_agree (fs : FileSystem) (m : Nat) :
    ∀ kv ∈ find_duplicates fs m, ∀ f1 ∈ kv.2, ∀ f2 ∈ kv.2,
      md5hex (f1.content.take 1000) = md5hex (f2.content.take 1000) := by
  intro kv hkv f1 h1 f2 h2
  have a1 := md5hex_of_checksum_some (find_duplicates_mem fs m kv hkv f1 h1).2.2.2.2
  have a2 := md5hex_of_checksum_some (find_duplicates_mem fs m kv hkv f2 h2).2.2.2.2
  rw [a1, a2]

/-- Witness for C3 (amended) at the colliding scan of `fsCol`. -/
theorem C3_witness :
    md5hex (fCol1.content.take 1000) = md5hex (fCol2.content.take 1000) :=
  C3_digests_agree fsCol 0 dupSetCol (by decide) fCol1 (by decide) fCol2 (by decide)

/-- Claim C4: for every DuplicateSet mapping, `calculate_extra_data`
returns exactly the sum over all sets of (member count − 1) × size, the
size being the one stored in the set's key.  The embedded function is a
pure total function over unbounded integers, so it performs no I/O and
has no overflow failure mode. -/
theorem C4_extra_data (dups : List ((String × Nat) × List FSFile)) :
    calculate_extra_data dups =
      (dups.map fun kv => (kv.1.2 : Int) * ((kv.2.length : Int) - 1)).sum := by
  unfold calculate_extra_data
  rw [foldl_add_eq_sum (fun kv => (kv.1.2 : Int) * ((kv.2.length : Int) - 1)) dups 0,
    zero_add]

/-- Claim C5: the fingerprint of a file is computed from at most its first
1000 content bytes by the fixed digest function `md5hex`: whenever two
readable files agree on their first 1000 bytes, their checksums agree, and
the checksum is exactly the MD5 hex digest of that prefix — in particular
it is reproducible across runs on identical contents. -/
theorem C5_checksum_from_head (f1 f2 : FSFile)
    (h1 : f1.readable = true) (h2 : f2.readable = true)
    (h : f1.content.take 1000 = f2.content.take 1000) :
    calculate_checksum f1 = calculate_checksum f2 ∧
      calculate_checksum f1 = some (md5hex (f1.content.take 1000)) := by
  unfold calculate_checksum
  rw [if_pos h1, if_pos h2, h]
  exact ⟨rfl, rfl⟩

/-- Witness for C5 at the two identical-content files of `fsMerge`. -/
theorem C5_witness :
    calculate_checksum fX1 = calculate_checksum fX2 ∧
      calculate_checksum fX1 = some (md5hex (fX1.content.take 1000)) :=
  C5_checksum_from_head fX1 fX2 rfl rfl rfl

/-- Claim C6: a read failure during fingerprinting is local.  First, every
file in the fingerprint results of a candidate group passed its read
(an unreadable file is excluded).  Second, every sibling whose checksum
succeeds still appears in the fingerprint results — no failure aborts the
processing of the rest of the group.  Third, if fewer than 2 members of
the group were successfully fingerprinted, the group emits no
DuplicateSet at all. -/
theorem C6_read_failure_local :
    (∀ paths : List FSFile, ∀ f ∈ alValues (checksumGroups paths),
        f.readable = true) ∧
      (∀ paths : List FSFile, ∀ f ∈ paths, checksumOk f = true →
        f ∈ alValues (checksumGroups paths)) ∧
      (∀ fsz : Nat, ∀ paths : List FSFile,
        (paths.filter checksumOk).length < 2 →
          ∀ dups, emitGroup fsz paths dups = dups) := by
  refine ⟨?_, ?_, ?_⟩
  · intro paths f hf
    obtain ⟨kv, hkv, hmem⟩ := exists_of_mem_alValues hf
    exact readable_of_checksum_some (checksumGroups_mem kv hkv f hmem).2
  · intro paths f hf hok
    have h1 : f ∈ paths.filter checksumOk := List.mem_filter.mpr ⟨hf, hok⟩
    have h2 : f ∈ (↑(paths.filter checksumOk) : Multiset FSFile) :=
      Multiset.mem_coe.mpr h1
    rw [← checksumGroups_values] at h2
    exact Multiset.mem_coe.mp h2
  · intro fsz paths h dups
    exact emitGroup_unchanged h dups

/-- Witness for C6 on the group `[fX1, fBad]`: the readable member is
fingerprinted, the group (having only one successful fingerprint) emits
nothing, and the readability fact instantiates at the fingerprinted
member. -/
theorem C6_witness :
    fX1.readable = true ∧
      fX1 ∈ alValues (checksumGroups [fX1, fBad]) ∧
      emitGroup 1 [fX1, fBad] [] = [] :=
  ⟨C6_read_failure_local.1 [fX1, fBad] fX1 (by decide),
    C6_read_failure_local.2.1 [fX1, fBad] fX1 (by decide) (by decide),
    C6_read_failure_local.2.2 1 [fX1, fBad] (by decide) []⟩

/-- Claim C7: threshold enforcement.  Every file appearing in any
candidate group was accepted by `os.path.isfile` and has byte size at
least the minimum-size threshold, and the same holds — with the threshold
`min_size_mb * 1024 * 1024` — for every file in any DuplicateSet returned
by `find_duplicates`. -/
theorem C7_threshold (entries : List FSFile) (msb : Nat)
    (fs : FileSystem) (m : Nat) :
    (∀ kv ∈ collectCandidates entries msb, ∀ f ∈ kv.2,
        f.isfile = true ∧ msb ≤ fsize f) ∧
      (∀ kv ∈ find_duplicates fs m, ∀ f ∈ kv.2,
        f.isfile = true ∧ m * 1024 * 1024 ≤ fsize f) := by
  constructor
  · intro kv hkv f hf
    have a := collectCandidates_mem entries msb kv hkv f hf
    exact ⟨a.1, a.2.1⟩
  · intro kv hkv f hf
    have a := find_duplicates_mem fs m kv hkv f hf
    exact ⟨a.2.1, a.2.2.1⟩

/-- Witness for C7 at a one-file candidate listing and at the scan of
`fsMerge`. -/
theorem C7_witness :
    (fX1.isfile = true ∧ 1 ≤ fsize fX1) ∧
      (fX1.isfile = true ∧ 0 * 1024 * 1024 ≤ fsize fX1) :=
  ⟨(C7_threshold [fX1] 1 fsMerge 0).1 ((1, "x"), [fX1]) (by decide) fX1 (by decide),
    (C7_threshold [fX1] 1 fsMerge 0).2 dupSetMerge (by decide) fX1 (by decide)⟩

/-- Claim C8: every DuplicateSet in the mapping returned by
`find_duplicates` holds at least 2 paths; moreover a checksum group of
exactly one path is dropped by the emission step without changing the
mapping. -/
theorem C8_min_two_members (fs : FileSystem) (m : Nat) :
    (∀ kv ∈ find_duplicates fs m, 2 ≤ kv.2.length) ∧
      (∀ fsz : Nat, ∀ dups, ∀ ckv : String × List FSFile,
        ckv.2.length = 1 → emitStep fsz dups ckv = dups) := by
  refine ⟨find_duplicates_two_le fs m, ?_⟩
  intro fsz dups ckv h1
  apply emitStep_skip
  omega

/-- Witness for C8 at the scan of `fsMerge` and at a concrete singleton
checksum group. -/
theorem C8_witness :
    2 ≤ dupSetMerge.2.length ∧ emitStep 1 [] ("c", [fX1]) = [] :=
  ⟨(C8_min_two_members fsMerge 0).1 dupSetMerge (by decide),
    (C8_min_two_members fsMerge 0).2 1 [] ("c", [fX1]) (by decide)⟩

/-- Claim C9: within a single scan on a fixed filesystem state (whose
traversal yields pairwise distinct paths), every path appears in at most
one DuplicateSet of the returned mapping: the number of entries of the
mapping whose member list contains a given path is at most 1. -/
theorem C9_path_in_one_set (fs : FileSystem) (m : Nat)
    (h : (fs.entries.map FSFile.path).Nodup) (p : String) :
    (find_duplicates fs m).countP
      (fun kv => decide (p ∈ kv.2.map FSFile.path)) ≤ 1 := by
  refine countP_le_one_of_pairwise
    (P := fun (kv : (String × Nat) × List FSFile) => p ∈ kv.2.map FSFile.path) ?_
  exact (find_duplicates_pairwise_disjoint fs m h).imp (fun h12 hp1 => h12 p hp1)

/-- Witness for C9: in the scan of `fsMerge`, the path of `fX1` lies in at
most one DuplicateSet. -/
theorem C9_witness :
    (find_duplicates fsMerge 0).countP
      (fun kv => decide ("/r/a/x" ∈ kv.2.map FSFile.path)) ≤ 1 :=
  C9_path_in_one_set fsMerge 0 (by decide) "/r/a/x"

/-- Claim C10: within a single scan on a fixed filesystem state (whose
traversal yields pairwise distinct paths), no path occurs more than once
inside the member sequence of any one DuplicateSet, so each physical copy
is appended to the output at most once and `calculate_extra_data` counts
it exactly once. -/
theorem C10_no_repeats_in_set (fs : FileSystem) (m : Nat)
    (h : (fs.entries.map FSFile.path).Nodup) :
    ∀ kv ∈ find_duplicates fs m, (kv.2.map FSFile.path).Nodup :=
  find_duplicates_sets_nodup fs m h

/-- Witness for C10 at the DuplicateSet of the `fsMerge` scan. -/
theorem C10_witness : (dupSetMerge.2.map FSFile.path).Nodup :=
  C10_no_repeats_in_set fsMerge 0 (by decide) dupSetMerge (by decide)
